import Mathlib

/-!
Verification of the card-diff comparison tool (src/card_diff/compare.py).

The Python source is shallowly embedded: card names are lists of characters,
card mappings are association lists from name to quantity, the file system is
a function from paths to optional file contents, and fallible operations
return `Except`.
-/

namespace CardDiff

/-- Whitespace characters stripped by Python `str.strip` and matched by
the regex class used for quantities (ASCII subset). -/
def isPySpace (c : Char) : Bool :=
  c == ' ' || c == '\t' || c == '\n' || c == '\r' || c == Char.ofNat 11 || c == Char.ofNat 12

/-- Python `str.strip`: remove leading and trailing whitespace. -/
def strip (s : List Char) : List Char :=
  ((s.dropWhile isPySpace).reverse.dropWhile isPySpace).reverse

/-- Whether the first list is a prefix of the second (executable). -/
def leadsWith : List Char → List Char → Bool
  | [], _ => true
  | _ :: _, [] => false
  | p :: ps, c :: cs => p == c && leadsWith ps cs

/-- Split a character list at the first occurrence of `sep`
(`Python s.split(sep)` keeps the part before the first separator first);
`none` when `sep` does not occur. -/
def splitAtSub (sep : List Char) : List Char → Option (List Char × List Char)
  | [] => none
  | c :: rest =>
    if leadsWith sep (c :: rest) then some ([], (c :: rest).drop sep.length)
    else
      match splitAtSub sep rest with
      | some (pre, post) => some (c :: pre, post)
      | none => none

/-- Python substring containment `sep in s`. -/
def containsSub (sep s : List Char) : Bool := (splitAtSub sep s).isSome

/-- The part of `s` before the first occurrence of `sep`
(Python `s.split(sep)[0]` when `sep` occurs in `s`). -/
def beforeFirst (sep s : List Char) : List Char :=
  match splitAtSub sep s with
  | some (pre, _) => pre
  | none => s

/-- The double-slash separator of split and double-faced card names. -/
def dslashChars : List Char := " // ".data

/-- `normalize_card_name` from compare.py: take the part before a double
slash, else before a single slash, else the name unchanged. -/
def normalize_card_name (card_name : List Char) : List Char :=
  if containsSub dslashChars card_name then strip (beforeFirst dslashChars card_name)
  else if containsSub ['/'] card_name then strip (beforeFirst ['/'] card_name)
  else card_name

/-- Characters of `rest` before the first closing bracket, `none` when
there is no closing bracket. -/
def takeUntilRB : List Char → Option (List Char)
  | [] => none
  | c :: rest => if c == ']' then some [] else (takeUntilRB rest).map (fun l => c :: l)

/-- The content of the first bracket pair found, in the sense of
Python `re.search` with a pattern requiring non-empty bracket content:
the leftmost opening bracket followed by at least one character other than
a closing bracket and then a closing bracket. -/
def bracketContent : List Char → Option (List Char)
  | [] => none
  | c :: rest =>
    if c == '[' then
      match takeUntilRB rest with
      | some content => if content = [] then bracketContent rest else some content
      | none => bracketContent rest
    else bracketContent rest

/-- Python `s.split(",")` on a character list. -/
def splitOnComma : List Char → List (List Char)
  | [] => [[]]
  | c :: rest =>
    if c == ',' then [] :: splitOnComma rest
    else
      match splitOnComma rest with
      | t :: ts => (c :: t) :: ts
      | [] => [[c]]

/-- The tag that marks a sideboard line. -/
def sideboardChars : List Char := "Sideboard".data

/-- The marker excluding a line from the deck, `\x7bnoDeck\x7d`. -/
def noDeckChars : List Char := "\x7bnoDeck\x7d".data

/-- The tag check of `parse_card_line` (compare.py lines 58-72): a stripped
line is skipped when its first bracket pair holds a tag equal to
`Sideboard` after trimming, or its raw bracket text holds the noDeck
marker. -/
def tagsSkip (line : List Char) : Bool :=
  if line.contains '[' && line.contains ']' then
    match bracketContent line with
    | some tagsText =>
      ((splitOnComma tagsText).any fun tag => strip tag == sideboardChars)
        || containsSub noDeckChars tagsText
    | none => false
  else false

/-- Digits to the integer they denote, as Python `int`. -/
def digitsToNat (ds : List Char) : Nat := ds.foldl (fun n c => n * 10 + (c.toNat - 48)) 0

/-- Consume the optional `x` after the digits of a quantity token. -/
def afterOptX : List Char → List Char
  | [] => []
  | c :: r => if c == 'x' then r else c :: r

/-- The leading-quantity match of `parse_card_line`: one or more digits,
an optional `x`, then at least one whitespace character; returns the
quantity and the rest of the line after the whitespace run. -/
def matchQuantity (s : List Char) : Option (Nat × List Char) :=
  if s.takeWhile Char.isDigit = [] then none
  else if (afterOptX (s.dropWhile Char.isDigit)).takeWhile isPySpace = [] then none
  else some (digitsToNat (s.takeWhile Char.isDigit),
    (afterOptX (s.dropWhile Char.isDigit)).dropWhile isPySpace)

/-- The quantity-and-name phase of `parse_card_line` (compare.py lines
74-93), applied to the stripped line when the tag check did not skip it:
the raw name, the text up to the first opening parenthesis, must be
non-empty, and is trimmed then normalized. -/
def parseAfterTags (line : List Char) : List Char × Nat :=
  match matchQuantity line with
  | none => ([], 0)
  | some (quantity, remaining) =>
    if remaining.takeWhile (fun c => c != '(') = [] then ([], 0)
    else (normalize_card_name (strip (remaining.takeWhile (fun c => c != '('))), quantity)

/-- `parse_card_line` from compare.py: strip the line, skip blank and
tag-excluded lines, then parse quantity and name. -/
def parse_card_line (line0 : List Char) : List Char × Nat :=
  if strip line0 = [] then ([], 0)
  else if tagsSkip (strip line0) then ([], 0)
  else parseAfterTags (strip line0)

/-- The fixed basic-land exclusion list. -/
def BASIC_LANDS : List (List Char) :=
  ["Forest".data, "Island".data, "Swamp".data, "Plains".data, "Mountain".data]

/-- `cards[name] += qty` on a `defaultdict(int)` modelled as an association
list: update the existing entry in place, or append a fresh entry whose
running total starts at zero. -/
def addCard (cards : List (List Char × Nat)) (name : List Char) (qty : Nat) :
    List (List Char × Nat) :=
  match cards with
  | [] => [(name, qty)]
  | (n, q) :: rest => if n = name then (n, q + qty) :: rest else (n, q) :: addCard rest name qty

/-- One iteration of the line loop of `read_card_file` (compare.py lines
117-120): parse the line, then accumulate unless the name is empty or a
basic land. -/
def readStep (cards : List (List Char × Nat)) (line : List Char) :
    List (List Char × Nat) :=
  let p := parse_card_line line
  if p.1 ≠ [] ∧ p.1 ∉ BASIC_LANDS then addCard cards p.1 p.2 else cards

/-- The line loop of `read_card_file` (compare.py lines 116-120), applied
to the lines of an already opened file. -/
def readCardLines (lines : List (List Char)) : List (List Char × Nat) :=
  lines.foldl readStep []

/-- The line loop of `read_filter_file` (compare.py lines 145-148): a set
of names, modelled as a duplicate-free list. -/
def readFilterLines (lines : List (List Char)) : List (List Char) :=
  lines.foldl
    (fun filterCards line =>
      let p := parse_card_line line
      if p.1 ≠ [] ∧ p.1 ∉ filterCards then filterCards ++ [p.1] else filterCards)
    []

/-- Dictionary lookup on an association list. -/
def lookupVal {α : Type} : List (List Char × α) → List Char → Option α
  | [], _ => none
  | (k, v) :: rest, n => if k = n then some v else lookupVal rest n

/-- Python `card in cards`. -/
def memCard (cards : List (List Char × Nat)) (n : List Char) : Bool :=
  (lookupVal cards n).isSome

/-- The filtering loop of `compare_card_lists` (compare.py lines 183-187):
delete every filtered name from a mapping. -/
def removeFiltered (cards : List (List Char × Nat)) (filterCards : List (List Char)) :
    List (List Char × Nat) :=
  cards.filter (fun p => !(filterCards.contains p.1))

/-- Cards of the first mapping whose name is absent from the second
(compare.py lines 190-193). -/
def uniqueTo (cards1 cards2 : List (List Char × Nat)) : List (List Char × Nat) :=
  cards1.filter (fun p => !(memCard cards2 p.1))

/-- Cards present in both mappings with different quantities, mapped to the
pair of quantities (compare.py lines 196-199). -/
def differingQty (cards1 cards2 : List (List Char × Nat)) :
    List (List Char × (Nat × Nat)) :=
  cards1.filterMap (fun p =>
    match lookupVal cards2 p.1 with
    | some q2 => if q2 = p.2 then none else some (p.1, (p.2, q2))
    | none => none)

/-- Accumulated quantity of a name in a mapping, zero when absent. -/
def qtyOf (cards : List (List Char × Nat)) (n : List Char) : Nat :=
  (lookupVal cards n).getD 0

/-- Intended lookup behaviour of the differing-quantities result: a pair
of quantities exactly when the name is in both mappings with unequal
quantities. -/
def diffSpec (a b : Option Nat) : Option (Nat × Nat) :=
  match a, b with
  | some qa, some qb => if qb = qa then none else some (qa, qb)
  | some _, none => none
  | none, _ => none

/-- `read_card_file` from compare.py over an abstract file system: a file
that cannot be opened is a fatal error carrying exit status 1. -/
def read_card_file (fs : String → Option (List (List Char))) (path : String) :
    Except Nat (List (List Char × Nat)) :=
  match fs path with
  | none => Except.error 1
  | some lines => Except.ok (readCardLines lines)

/-- `read_filter_file` from compare.py over an abstract file system: a
filter file that cannot be opened only warns and yields the empty set. -/
def read_filter_file (fs : String → Option (List (List Char))) (path : String) :
    List (List Char) :=
  match fs path with
  | none => []
  | some lines => readFilterLines lines

/-- `compare_card_lists` from compare.py over an abstract file system. -/
def compare_card_lists (fs : String → Option (List (List Char)))
    (file1 file2 : String) (filterFile : Option String) :
    Except Nat ((List (List Char × Nat)) × (List (List Char × Nat)) ×
      (List (List Char × (Nat × Nat)))) :=
  match read_card_file fs file1 with
  | Except.error e => Except.error e
  | Except.ok cards1 =>
    match read_card_file fs file2 with
    | Except.error e => Except.error e
    | Except.ok cards2 =>
      let filterCards :=
        match filterFile with
        | none => ([] : List (List Char))
        | some ff => read_filter_file fs ff
      let c1 := removeFiltered cards1 filterCards
      let c2 := removeFiltered cards2 filterCards
      Except.ok (uniqueTo c1 c2, uniqueTo c2 c1, differingQty c1 c2)

/-- A line begins with a quantity token: one or more digits, an optional
`x`, then at least one whitespace character. -/
def QtyToken (s : List Char) : Prop :=
  ∃ d w rest, d ≠ [] ∧ (∀ c ∈ d, c.isDigit = true) ∧ w ≠ [] ∧
    (∀ c ∈ w, isPySpace c = true) ∧
    (s = d ++ w ++ rest ∨ s = d ++ 'x' :: (w ++ rest))

/-- A list contains `sep` as a contiguous substring. -/
def ContainsSubP (sep s : List Char) : Prop :=
  ∃ p q, s = p ++ sep ++ q

/-- Example mapping A of the specification. -/
def exA : List (List Char × Nat) := [("Sol Ring".data, 1), ("Brainstorm".data, 1)]

/-- Example mapping B of the specification. -/
def exB : List (List Char × Nat) := [("Sol Ring".data, 2)]

/-- Filtering with an empty exclusion set leaves a mapping unchanged. -/
lemma removeFiltered_nil (cards : List (List Char × Nat)) :
    removeFiltered cards [] = cards := by
  induction cards with
  | nil => rfl
  | cons p rest ih =>
    simp only [removeFiltered, List.filter_cons] at ih ⊢
    simp [ih]

/-- Accumulating a quantity for a name puts the summed total at that name. -/
lemma lookupVal_addCard_self (cards : List (List Char × Nat)) (n : List Char) (q : Nat) :
    lookupVal (addCard cards n q) n = some (qtyOf cards n + q) := by
  induction cards with
  | nil => simp [addCard, lookupVal, qtyOf]
  | cons p rest ih =>
    obtain ⟨k, v⟩ := p
    by_cases hk : k = n
    · subst hk
      simp [addCard, lookupVal, qtyOf]
    · simp [addCard, lookupVal, qtyOf, hk, ih]

/-- Accumulating a quantity for one name leaves other names unchanged. -/
lemma lookupVal_addCard_ne (cards : List (List Char × Nat)) (m n : List Char) (q : Nat)
    (h : m ≠ n) : lookupVal (addCard cards m q) n = lookupVal cards n := by
  induction cards with
  | nil => simp [addCard, lookupVal, h]
  | cons p rest ih =>
    obtain ⟨k, v⟩ := p
    by_cases hk : k = m
    · subst hk
      simp [addCard, lookupVal, h]
    · simp [addCard, lookupVal, hk, ih]

/-- Accumulation either keeps the key list or appends the new key. -/
lemma keys_addCard (cards : List (List Char × Nat)) (m : List Char) (q : Nat) :
    (addCard cards m q).map Prod.fst = cards.map Prod.fst ∨
      (addCard cards m q).map Prod.fst = cards.map Prod.fst ++ [m] := by
  induction cards with
  | nil => right; rfl
  | cons p rest ih =>
    obtain ⟨k, v⟩ := p
    by_cases hk : k = m
    · left
      simp [addCard, hk]
    · rcases ih with ih | ih
      · left
        simp [addCard, hk, ih]
      · right
        simp [addCard, hk, ih]

/-- Accumulation introduces no key other than the accumulated one. -/
lemma mem_keys_addCard (cards : List (List Char × Nat)) (m n : List Char) (q : Nat)
    (h : n ∈ (addCard cards m q).map Prod.fst) :
    n ∈ cards.map Prod.fst ∨ n = m := by
  rcases keys_addCard cards m q with hk | hk
  · rw [hk] at h
    exact Or.inl h
  · rw [hk] at h
    rcases List.mem_append.mp h with h | h
    · exact Or.inl h
    · exact Or.inr (List.mem_singleton.mp h)

/-- One read step changes the accumulated quantity of a valid name by
exactly the contribution of the parsed line. -/
lemma qtyOf_readStep (cards : List (List Char × Nat)) (line name : List Char)
    (h1 : name ≠ []) (h2 : name ∉ BASIC_LANDS) :
    qtyOf (readStep cards line) name =
      qtyOf cards name +
        (if (parse_card_line line).1 = name then (parse_card_line line).2 else 0) := by
  unfold readStep
  by_cases hn : (parse_card_line line).1 = name
  · rw [if_pos hn, if_pos (by rw [hn]; exact ⟨h1, h2⟩)]
    simp [qtyOf, hn, lookupVal_addCard_self]
  · rw [if_neg hn]
    by_cases hg : (parse_card_line line).1 ≠ [] ∧ (parse_card_line line).1 ∉ BASIC_LANDS
    · rw [if_pos hg]
      simp [qtyOf, lookupVal_addCard_ne _ _ _ _ hn]
    · rw [if_neg hg]
      simp

/-- Folding the read step sums the contributions of all lines for a valid
name on top of the accumulator's quantity. -/
lemma qtyOf_foldl_readStep (lines : List (List Char)) :
    ∀ (cards : List (List Char × Nat)) (name : List Char), name ≠ [] →
      name ∉ BASIC_LANDS →
      qtyOf (List.foldl readStep cards lines) name =
        qtyOf cards name +
          (lines.map fun l =>
            if (parse_card_line l).1 = name then (parse_card_line l).2 else 0).sum := by
  induction lines with
  | nil => intro cards name h1 h2; simp
  | cons l ls ih =>
    intro cards name h1 h2
    simp only [List.foldl_cons, List.map_cons, List.sum_cons]
    rw [ih (readStep cards l) name h1 h2, qtyOf_readStep cards l name h1 h2]
    omega

/-- Every key of the accumulated mapping is an old key or a valid parsed
name. -/
lemma mem_keys_foldl_readStep (lines : List (List Char)) :
    ∀ (cards : List (List Char × Nat)) (name : List Char),
      name ∈ (List.foldl readStep cards lines).map Prod.fst →
      name ∈ cards.map Prod.fst ∨ (name ≠ [] ∧ name ∉ BASIC_LANDS) := by
  induction lines with
  | nil => intro cards name h; exact Or.inl h
  | cons l ls ih =>
    intro cards name h
    rcases ih (readStep cards l) name h with h | h
    · unfold readStep at h
      by_cases hg : (parse_card_line l).1 ≠ [] ∧ (parse_card_line l).1 ∉ BASIC_LANDS
      · rw [if_pos hg] at h
        rcases mem_keys_addCard cards _ name _ h with h | h
        · exact Or.inl h
        · subst h
          exact Or.inr hg
      · rw [if_neg hg] at h
        exact Or.inl h
    · exact Or.inr h

/-- Claim C4: repeated entries of the same normalized name in one file are
aggregated by summing their quantities; in particular the two example
lines for Sol Ring yield the single entry with quantity 3. -/
theorem c4_aggregation :
    (∀ (lines : List (List Char)) (name : List Char), name ≠ [] →
      name ∉ BASIC_LANDS →
      qtyOf (readCardLines lines) name =
        (lines.map fun l =>
          if (parse_card_line l).1 = name then (parse_card_line l).2 else 0).sum) ∧
    readCardLines ["1 Sol Ring (M10) 1".data, "2x Sol Ring (ABC) 2".data] =
      [("Sol Ring".data, 3)] := by
  constructor
  · intro lines name h1 h2
    have h := qtyOf_foldl_readStep lines [] name h1 h2
    simpa [readCardLines, qtyOf, lookupVal] using h
  · decide

/-- Witness for C4: the two example lines accumulate to quantity 3. -/
theorem c4_aggregation_witness :
    qtyOf (readCardLines ["1 Sol Ring (M10) 1".data, "2x Sol Ring (ABC) 2".data])
      "Sol Ring".data = 3 :=
  (c4_aggregation.1 ["1 Sol Ring (M10) 1".data, "2x Sol Ring (ABC) 2".data]
    "Sol Ring".data (by decide) (by decide)).trans (by decide)

/-- Claim C5: a card mapping never holds an empty name or a basic-land
name; after filtering it holds no excluded name; and a file holding only
`10 Forest` yields the empty mapping. -/
theorem c5_invariant :
    (∀ (lines : List (List Char)) (name : List Char),
      name ∈ (readCardLines lines).map Prod.fst →
      name ≠ [] ∧ name ∉ BASIC_LANDS) ∧
    (∀ (cards : List (List Char × Nat)) (filterCards : List (List Char))
      (name : List Char),
      name ∈ (removeFiltered cards filterCards).map Prod.fst →
      name ∉ filterCards) ∧
    readCardLines ["10 Forest".data] = [] := by
  refine ⟨?_, ?_, by decide⟩
  · intro lines name h
    rcases mem_keys_foldl_readStep lines [] name h with h | h
    · simp at h
    · exact h
  · intro cards filterCards name h
    rcases List.mem_map.mp h with ⟨p, hp, hfst⟩
    rcases List.mem_filter.mp hp with ⟨hmem, hpred⟩
    intro hcontra
    rw [hfst] at hpred
    simp [hcontra] at hpred

/-- Witness for C5: a file with a Sol Ring line yields a mapping whose
key is non-empty and not a basic land. -/
theorem c5_invariant_witness :
    "Sol Ring".data ≠ [] ∧ "Sol Ring".data ∉ BASIC_LANDS :=
  c5_invariant.1 ["1 Sol Ring".data] "Sol Ring".data (by decide)

/-- Claim C8: a required card-list file that cannot be opened makes the
whole comparison fail with exit status 1 and no comparison output. -/
theorem c8_missing_required_file (fs : String → Option (List (List Char)))
    (file1 file2 : String) (filterFile : Option String)
    (h : fs file1 = none ∨ fs file2 = none) :
    compare_card_lists fs file1 file2 filterFile = Except.error 1 := by
  unfold compare_card_lists read_card_file
  rcases h with h | h
  · rw [h]
  · rw [h]
    cases fs file1 <;> rfl

/-- Witness for C8: a file system with no files makes the comparison fail. -/
theorem c8_missing_required_file_witness :
    compare_card_lists (fun _ => none) "deck1.txt" "deck2.txt" none = Except.error 1 :=
  c8_missing_required_file (fun _ => none) "deck1.txt" "deck2.txt" none (Or.inl rfl)

/-- Claim C9: a missing filter file yields the empty exclusion set, the
results equal those of a run without a filter, and the run still completes
normally when both required files can be read. -/
theorem c9_missing_filter_file (fs : String → Option (List (List Char)))
    (file1 file2 ffPath : String) (h : fs ffPath = none) :
    read_filter_file fs ffPath = [] ∧
    compare_card_lists fs file1 file2 (some ffPath) =
      compare_card_lists fs file1 file2 none ∧
    (∀ lines1 lines2, fs file1 = some lines1 → fs file2 = some lines2 →
      compare_card_lists fs file1 file2 (some ffPath) =
        Except.ok (uniqueTo (readCardLines lines1) (readCardLines lines2),
          uniqueTo (readCardLines lines2) (readCardLines lines1),
          differingQty (readCardLines lines1) (readCardLines lines2))) := by
  have hf : read_filter_file fs ffPath = [] := by
    unfold read_filter_file
    rw [h]
  refine ⟨hf, ?_, ?_⟩
  · simp only [compare_card_lists, hf, removeFiltered_nil]
  · intro lines1 lines2 h1 h2
    simp only [compare_card_lists, read_card_file, hf, h1, h2, removeFiltered_nil]

/-- Witness for C9 at a concrete file system whose filter file is absent. -/
theorem c9_missing_filter_file_witness :
    compare_card_lists
        (fun p => if p = "missing.txt" then none else some []) "a.txt" "b.txt"
        (some "missing.txt") =
      compare_card_lists
        (fun p => if p = "missing.txt" then none else some []) "a.txt" "b.txt" none :=
  (c9_missing_filter_file (fun p => if p = "missing.txt" then none else some [])
    "a.txt" "b.txt" "missing.txt" (by decide)).2.1

/-- Claim C10: a line with an explicit zero quantity is not skipped: it
parses to its name with quantity zero, creates a mapping entry with
quantity zero, and such a name appears in a unique-to result with
quantity zero when absent from the other mapping. -/
theorem c10_zero_quantity_kept :
    parse_card_line "0 Sol Ring".data = ("Sol Ring".data, 0) ∧
    readCardLines ["0 Sol Ring".data] = [("Sol Ring".data, 0)] ∧
    uniqueTo (readCardLines ["0 Sol Ring".data]) [("Brainstorm".data, 1)] =
      [("Sol Ring".data, 0)] ∧
    lookupVal (uniqueTo (readCardLines ["0 Sol Ring".data]) [("Brainstorm".data, 1)])
      "Sol Ring".data = some 0 := by
  decide

/-- Lookup in a unique-to result: the first mapping's entry when the name
is absent from the second mapping, nothing otherwise. -/
lemma lookupVal_uniqueTo (cards1 cards2 : List (List Char × Nat)) (n : List Char) :
    lookupVal (uniqueTo cards1 cards2) n =
      if memCard cards2 n then none else lookupVal cards1 n := by
  induction cards1 with
  | nil =>
    unfold uniqueTo
    simp only [List.filter_nil, lookupVal]
    split <;> rfl
  | cons p rest ih =>
    obtain ⟨k, v⟩ := p
    unfold uniqueTo at ih ⊢
    rw [List.filter_cons]
    by_cases hk : k = n
    · subst hk
      by_cases hm : memCard cards2 k
      · simp [hm, ih]
      · simp [hm, lookupVal]
    · by_cases hm : memCard cards2 k
      · simp [hm, ih, lookupVal, hk]
      · simp [hm, lookupVal, hk, ih]

/-- The differing-quantities result only ever holds keys of the first
mapping. -/
lemma lookupVal_differing_notmem (cards1 cards2 : List (List Char × Nat))
    (n : List Char) (h : n ∉ cards1.map Prod.fst) :
    lookupVal (differingQty cards1 cards2) n = none := by
  induction cards1 with
  | nil => rfl
  | cons p rest ih =>
    obtain ⟨k, v⟩ := p
    have hkn : n ≠ k := by
      intro hkn
      exact h (by simp [hkn])
    have hrest : n ∉ rest.map Prod.fst := fun hm => h (by simp [hm])
    unfold differingQty at ih ⊢
    rw [List.filterMap_cons]
    cases h2 : lookupVal cards2 k with
    | none => simpa using ih hrest
    | some q2 =>
      by_cases he : q2 = v
      · simpa [he] using ih hrest
      · have hk2 : ¬(k = n) := fun hx => hkn hx.symm
        simpa [he, lookupVal, hk2] using ih hrest

/-- Lookup in the differing-quantities result matches `diffSpec` of the
two lookups, for a mapping with duplicate-free keys. -/
lemma lookupVal_differing (cards1 cards2 : List (List Char × Nat)) (n : List Char)
    (h1 : (cards1.map Prod.fst).Nodup) :
    lookupVal (differingQty cards1 cards2) n =
      diffSpec (lookupVal cards1 n) (lookupVal cards2 n) := by
  induction cards1 with
  | nil =>
    simp [differingQty, lookupVal, diffSpec]
  | cons p rest ih =>
    obtain ⟨k, v⟩ := p
    rw [List.map_cons, List.nodup_cons] at h1
    obtain ⟨hkmem, hnd⟩ := h1
    unfold differingQty at ih ⊢
    rw [List.filterMap_cons]
    by_cases hk : k = n
    · subst hk
      have hnone :
          lookupVal (rest.filterMap (fun p =>
            match lookupVal cards2 p.1 with
            | some q2 => if q2 = p.2 then none else some (p.1, (p.2, q2))
            | none => none)) k = none := by
        have := lookupVal_differing_notmem rest cards2 k hkmem
        unfold differingQty at this
        exact this
      cases h2 : lookupVal cards2 k with
      | none => simp [h2, hnone, lookupVal, diffSpec]
      | some q2 =>
        by_cases he : q2 = v
        · simp [h2, he, hnone, lookupVal, diffSpec]
        · simp [h2, he, lookupVal, diffSpec]
    · cases h2 : lookupVal cards2 k with
      | none => simpa [h2, lookupVal, hk] using ih hnd
      | some q2 =>
        by_cases he : q2 = v
        · simpa [h2, he, lookupVal, hk] using ih hnd
        · simpa [h2, he, lookupVal, hk] using ih hnd

/-- Claim C1: the comparator's three results hold precisely the names
unique to each mapping with that mapping's quantity, and the names in both
mappings with unequal quantities paired as (quantity in A, quantity in B);
a name in both with equal quantity is in none of the three; the
specification's Sol Ring example evaluates as stated. -/
theorem c1_compare_characterization :
    (∀ (A B : List (List Char × Nat)),
      (A.map Prod.fst).Nodup → (B.map Prod.fst).Nodup → ∀ (n : List Char),
      (∀ q, lookupVal (uniqueTo A B) n = some q ↔
        lookupVal A n = some q ∧ lookupVal B n = none) ∧
      (∀ q, lookupVal (uniqueTo B A) n = some q ↔
        lookupVal B n = some q ∧ lookupVal A n = none) ∧
      (∀ qa qb, lookupVal (differingQty A B) n = some (qa, qb) ↔
        lookupVal A n = some qa ∧ lookupVal B n = some qb ∧ qa ≠ qb) ∧
      (∀ q, lookupVal A n = some q → lookupVal B n = some q →
        lookupVal (uniqueTo A B) n = none ∧ lookupVal (uniqueTo B A) n = none ∧
          lookupVal (differingQty A B) n = none)) ∧
    (uniqueTo exA exB = [("Brainstorm".data, 1)] ∧ uniqueTo exB exA = [] ∧
      differingQty exA exB = [("Sol Ring".data, (1, 2))]) := by
  constructor
  · intro A B hA hB n
    refine ⟨?_, ?_, ?_, ?_⟩
    · intro q
      rw [lookupVal_uniqueTo]
      unfold memCard
      cases hb : lookupVal B n <;> simp [hb]
    · intro q
      rw [lookupVal_uniqueTo]
      unfold memCard
      cases ha : lookupVal A n <;> simp [ha]
    · intro qa qb
      rw [lookupVal_differing A B n hA]
      cases ha : lookupVal A n with
      | none => simp [diffSpec]
      | some qa2 =>
        cases hb : lookupVal B n with
        | none => simp [diffSpec]
        | some qb2 =>
          by_cases he : qb2 = qa2
          · simp only [diffSpec, if_pos he]
            constructor
            · intro h
              exact absurd h (by simp)
            · intro h
              simp only [Option.some.injEq] at h
              omega
          · simp only [diffSpec, if_neg he, Option.some.injEq, Prod.mk.injEq]
            constructor <;> intro h <;> [skip; skip] <;> omega
    · intro q ha hb
      refine ⟨?_, ?_, ?_⟩
      · rw [lookupVal_uniqueTo]
        simp [memCard, hb]
      · rw [lookupVal_uniqueTo]
        simp [memCard, ha]
      · rw [lookupVal_differing A B n hA, ha, hb]
        simp [diffSpec]
  · refine ⟨by decide, by decide, by decide⟩

/-- Witness for C1: Brainstorm is unique to the example mapping A with
quantity 1. -/
theorem c1_compare_characterization_witness :
    lookupVal (uniqueTo exA exB) "Brainstorm".data = some 1 :=
  ((c1_compare_characterization.1 exA exB (by decide) (by decide)
    "Brainstorm".data).1 1).mpr ⟨by decide, by decide⟩

/-- Counterexample to claim C2: the name `Fire / Ice`, whose only slash has
surrounding spaces, is not left unchanged by the code: it becomes `Fire`. -/
theorem c2_counterexample :
    normalize_card_name "Fire / Ice".data = "Fire".data ∧
    normalize_card_name "Fire / Ice".data ≠ "Fire / Ice".data := by
  decide

/-- Counterexample to claim C3: the line `1 /` returns an empty name with
quantity 1, not the skip signal's quantity zero. -/
theorem c3_counterexample :
    (parse_card_line "1 /".data).1 = [] ∧ (parse_card_line "1 /".data).2 ≠ 0 := by
  decide

/-- Unfolding of the quantity-and-name phase on a successful quantity
match. -/
lemma parseAfterTags_some (line : List Char) (q : Nat) (remaining : List Char)
    (h : matchQuantity line = some (q, remaining)) :
    parseAfterTags line =
      if remaining.takeWhile (fun c => c != '(') = [] then ([], 0)
      else (normalize_card_name (strip (remaining.takeWhile (fun c => c != '('))), q) := by
  unfold parseAfterTags
  rw [h]

/-- The parser either skips, or returns the quantity of the matched
leading token together with the trimmed and normalized raw name. -/
lemma parse_card_line_eq (line : List Char) :
    parse_card_line line = ([], 0) ∨
      ∃ q remaining, matchQuantity (strip line) = some (q, remaining) ∧
        remaining.takeWhile (fun c => c != '(') ≠ [] ∧
        parse_card_line line =
          (normalize_card_name (strip (remaining.takeWhile (fun c => c != '('))), q) := by
  unfold parse_card_line
  by_cases h0 : strip line = []
  · rw [if_pos h0]
    exact Or.inl rfl
  · rw [if_neg h0]
    by_cases ht : tagsSkip (strip line)
    · rw [if_pos ht]
      exact Or.inl rfl
    · rw [if_neg ht]
      cases hm : matchQuantity (strip line) with
      | none =>
        unfold parseAfterTags
        rw [hm]
        exact Or.inl rfl
      | some p =>
        obtain ⟨q, remaining⟩ := p
        rw [parseAfterTags_some _ _ _ hm]
        by_cases hr : remaining.takeWhile (fun c => c != '(') = []
        · rw [if_pos hr]
          exact Or.inl rfl
        · rw [if_neg hr]
          exact Or.inr ⟨q, remaining, rfl, hr, rfl⟩

/-- A found closing bracket is in the scanned characters. -/
lemma mem_of_takeUntilRB (l : List Char) (c : List Char) (h : takeUntilRB l = some c) :
    ']' ∈ l := by
  induction l generalizing c with
  | nil => exact Option.noConfusion h
  | cons a rest ih =>
    by_cases ha : a = ']'
    · simp [ha]
    · simp only [takeUntilRB, if_neg (by simpa using ha : ¬((a == ']') = true))] at h
      cases hr : takeUntilRB rest with
      | none => simp [hr] at h
      | some c2 => exact List.mem_cons_of_mem _ (ih c2 hr)

/-- A line whose first bracket pair is found holds both brackets. -/
lemma mem_of_bracketContent (s : List Char) (c : List Char) (h : bracketContent s = some c) :
    '[' ∈ s ∧ ']' ∈ s := by
  induction s generalizing c with
  | nil => exact Option.noConfusion h
  | cons a rest ih =>
    by_cases ha : a = '['
    · simp only [bracketContent, if_pos (by simpa using ha : (a == '[') = true)] at h
      cases hr : takeUntilRB rest with
      | none =>
        simp only [hr] at h
        obtain ⟨h1, h2⟩ := ih c h
        exact ⟨List.mem_cons_of_mem _ h1, List.mem_cons_of_mem _ h2⟩
      | some content =>
        simp only [hr] at h
        by_cases hc : content = []
        · rw [if_pos hc] at h
          obtain ⟨h1, h2⟩ := ih c h
          exact ⟨List.mem_cons_of_mem _ h1, List.mem_cons_of_mem _ h2⟩
        · rw [if_neg hc] at h
          exact ⟨by simp [ha], List.mem_cons_of_mem _ (mem_of_takeUntilRB rest content hr)⟩
    · simp only [bracketContent, if_neg (by simpa using ha : ¬((a == '[') = true))] at h
      obtain ⟨h1, h2⟩ := ih c h
      exact ⟨List.mem_cons_of_mem _ h1, List.mem_cons_of_mem _ h2⟩

/-- Claim C6: a line whose first found bracket pair holds a trimmed tag
equal to `Sideboard`, or whose raw bracket text holds the noDeck marker,
is skipped by the parser regardless of the rest of the line. -/
theorem c6_tag_exclusion (line content : List Char)
    (hbc : bracketContent (strip line) = some content)
    (hskip : ((splitOnComma content).any fun tag => strip tag == sideboardChars) = true ∨
      containsSub noDeckChars content = true) :
    parse_card_line line = ([], 0) := by
  obtain ⟨hlb, hrb⟩ := mem_of_bracketContent _ _ hbc
  have hne : strip line ≠ [] := by
    intro h0
    rw [h0] at hbc
    exact Option.noConfusion hbc
  have hc1 : (strip line).contains '[' = true := List.elem_eq_true_of_mem hlb
  have hc2 : (strip line).contains ']' = true := List.elem_eq_true_of_mem hrb
  have htag : tagsSkip (strip line) = true := by
    unfold tagsSkip
    rw [if_pos (by simp [hc1, hc2, hlb, hrb])]
    rw [hbc]
    rcases hskip with h | h
    · simp [h]
    · simp [h]
  unfold parse_card_line
  rw [if_neg hne, if_pos htag]

/-- Witness for C6: a valid Sol Ring line tagged `[Foo,Sideboard]` is
skipped. -/
theorem c6_tag_exclusion_witness :
    parse_card_line "1 Sol Ring [Foo,Sideboard]".data = ([], 0) :=
  c6_tag_exclusion "1 Sol Ring [Foo,Sideboard]".data "Foo,Sideboard".data
    (by decide) (Or.inl (by decide))

/-- A whitespace character is one of six concrete characters. -/
lemma pySpace_cases (c : Char) (h : isPySpace c = true) :
    c = ' ' ∨ c = '\t' ∨ c = '\n' ∨ c = '\r' ∨ c = Char.ofNat 11 ∨ c = Char.ofNat 12 := by
  unfold isPySpace at h
  simp only [Bool.or_eq_true, beq_iff_eq] at h
  tauto

/-- Whitespace characters are not digits. -/
lemma not_digit_of_pySpace (c : Char) (h : isPySpace c = true) : c.isDigit = false := by
  rcases pySpace_cases c h with h | h | h | h | h | h <;> subst h <;> decide

/-- Whitespace characters are not the letter `x`. -/
lemma not_x_of_pySpace (c : Char) (h : isPySpace c = true) : (c == 'x') = false := by
  rcases pySpace_cases c h with h | h | h | h | h | h <;> subst h <;> decide

/-- `takeWhile` and `dropWhile` split exactly at the end of a block of
characters satisfying the predicate when the next character fails it. -/
lemma takeWhile_append_head (p : Char → Bool) :
    ∀ (d l : List Char), (∀ c ∈ d, p c = true) →
      (∀ c cs, l = c :: cs → p c = false) →
      (d ++ l).takeWhile p = d ∧ (d ++ l).dropWhile p = l := by
  intro d
  induction d with
  | nil =>
    intro l _ hl
    cases l with
    | nil => exact ⟨rfl, rfl⟩
    | cons c cs =>
      have hc := hl c cs rfl
      exact ⟨by simp [List.takeWhile_cons, hc], by simp [List.dropWhile_cons, hc]⟩
  | cons a d2 ih =>
    intro l hd hl
    have ha : p a = true := hd a (by simp)
    obtain ⟨h1, h2⟩ := ih l (fun c hc => hd c (by simp [hc])) hl
    exact ⟨by simp [List.takeWhile_cons, ha, h1], by simp [List.dropWhile_cons, ha, h2]⟩

/-- A successful quantity match exhibits a leading quantity token. -/
lemma qtyToken_of_matchQuantity (s : List Char) (q : Nat) (r : List Char)
    (h : matchQuantity s = some (q, r)) : QtyToken s := by
  unfold matchQuantity at h
  by_cases h1 : s.takeWhile Char.isDigit = []
  · rw [if_pos h1] at h
    exact Option.noConfusion h
  · rw [if_neg h1] at h
    by_cases h2 : (afterOptX (s.dropWhile Char.isDigit)).takeWhile isPySpace = []
    · rw [if_pos h2] at h
      exact Option.noConfusion h
    · have hs : s.takeWhile Char.isDigit ++ s.dropWhile Char.isDigit = s :=
        List.takeWhile_append_dropWhile Char.isDigit s
      have hdig : ∀ c ∈ s.takeWhile Char.isDigit, c.isDigit = true :=
        fun c hc => List.mem_takeWhile_imp hc
      cases hr1 : s.dropWhile Char.isDigit with
      | nil =>
        rw [hr1] at h2
        exact absurd rfl h2
      | cons c rest =>
        by_cases hx : (c == 'x') = true
        · have hao : afterOptX (s.dropWhile Char.isDigit) = rest := by
            rw [hr1]
            simp [afterOptX, hx]
          rw [hao] at h2
          refine ⟨s.takeWhile Char.isDigit, rest.takeWhile isPySpace,
            rest.dropWhile isPySpace, h1, hdig, h2,
            fun cc hcc => List.mem_takeWhile_imp hcc, Or.inr ?_⟩
          have hcx : c = 'x' := by simpa using hx
          rw [List.takeWhile_append_dropWhile isPySpace rest, ← hcx, ← hr1, hs]
        · have hao : afterOptX (s.dropWhile Char.isDigit) = c :: rest := by
            rw [hr1]
            simp [afterOptX, hx]
          rw [hao] at h2
          refine ⟨s.takeWhile Char.isDigit, (c :: rest).takeWhile isPySpace,
            (c :: rest).dropWhile isPySpace, h1, hdig, h2,
            fun cc hcc => List.mem_takeWhile_imp hcc, Or.inl ?_⟩
          rw [List.append_assoc, List.takeWhile_append_dropWhile isPySpace (c :: rest),
            ← hr1, hs]

/-- A leading quantity token makes the quantity match succeed. -/
lemma matchQuantity_isSome_of_qtyToken (s : List Char) (h : QtyToken s) :
    (matchQuantity s).isSome = true := by
  obtain ⟨d, w, rest, hd, hdig, hw, hsp, hcase⟩ := h
  cases w with
  | nil => exact absurd rfl hw
  | cons cw ws =>
    have hcw : isPySpace cw = true := hsp cw (by simp)
    rcases hcase with hs | hs
    · subst hs
      obtain ⟨h1, h2⟩ := takeWhile_append_head Char.isDigit d ((cw :: ws) ++ rest) hdig
        (fun c cs hc => by
          rw [List.cons_append] at hc
          injection hc with hc1 hc2
          rw [← hc1]
          exact not_digit_of_pySpace cw hcw)
      have hx : (cw == 'x') = false := not_x_of_pySpace cw hcw
      rw [List.append_assoc]
      simp only [matchQuantity, h1, h2]
      rw [if_neg hd]
      simp [afterOptX, List.cons_append, hx, List.takeWhile_cons, hcw]
    · subst hs
      obtain ⟨h1, h2⟩ := takeWhile_append_head Char.isDigit d ('x' :: ((cw :: ws) ++ rest))
        hdig
        (fun c cs hc => by
          injection hc with hc1 hc2
          rw [← hc1]
          decide)
      simp only [matchQuantity, h1, h2]
      rw [if_neg hd]
      simp [afterOptX, List.cons_append, List.takeWhile_cons, hcw]

/-- Claim C7: a line that does not begin, after trimming, with a quantity
token (digits, optional `x`, whitespace) is skipped by the parser. -/
theorem c7_no_quantity_token_skips (line : List Char)
    (h : ¬ QtyToken (strip line)) : parse_card_line line = ([], 0) := by
  have hm : matchQuantity (strip line) = none := by
    cases hq : matchQuantity (strip line) with
    | none => rfl
    | some p => exact absurd (qtyToken_of_matchQuantity _ p.1 p.2 (by rw [hq])) h
  unfold parse_card_line
  by_cases h0 : strip line = []
  · rw [if_pos h0]
  · rw [if_neg h0]
    by_cases ht : tagsSkip (strip line)
    · rw [if_pos ht]
    · rw [if_neg ht]
      unfold parseAfterTags
      rw [hm]

/-- Witness for C7: a line with no leading digits is skipped. -/
theorem c7_no_quantity_token_skips_witness :
    parse_card_line "Sol Ring".data = ([], 0) :=
  c7_no_quantity_token_skips "Sol Ring".data (fun h =>
    absurd (matchQuantity_isSome_of_qtyToken _ h) (by decide))

/-- Claim C3 as amended: the parser returns the skip signal or a parsed
pair, and an empty returned name comes with quantity zero except when the
line has a valid quantity token whose raw name normalizes to the empty
string, in which case the parsed quantity accompanies the empty name. -/
theorem c3_amended_parser_shape (line : List Char)
    (h : (parse_card_line line).1 = []) :
    (parse_card_line line).2 = 0 ∨
      ∃ q remaining, matchQuantity (strip line) = some (q, remaining) ∧
        parse_card_line line = ([], q) ∧
        normalize_card_name (strip (remaining.takeWhile (fun c => c != '('))) = [] := by
  rcases parse_card_line_eq line with hp | ⟨q, remaining, hm, hraw, hp⟩
  · left
    rw [hp]
  · right
    have hname : normalize_card_name (strip (remaining.takeWhile (fun c => c != '('))) = [] := by
      rw [hp] at h
      exact h
    exact ⟨q, remaining, hm, by rw [hp, hname], hname⟩

/-- Witness for C3: a line with no quantity token lands in the
quantity-zero case. -/
theorem c3_amended_parser_shape_witness :
    (parse_card_line "x".data).2 = 0 ∨
      ∃ q remaining, matchQuantity (strip "x".data) = some (q, remaining) ∧
        parse_card_line "x".data = ([], q) ∧
        normalize_card_name (strip (remaining.takeWhile (fun c => c != '('))) = [] :=
  c3_amended_parser_shape "x".data (by decide)

/-- Every list starts with itself. -/
lemma leadsWith_append (p r : List Char) : leadsWith p (p ++ r) = true := by
  induction p with
  | nil => rfl
  | cons a ps ih => simp [leadsWith, ih]

/-- A verified prefix can be split off. -/
lemma exists_of_leadsWith (p : List Char) :
    ∀ (s : List Char), leadsWith p s = true → ∃ r, s = p ++ r := by
  induction p with
  | nil =>
    intro s _
    exact ⟨s, rfl⟩
  | cons a ps ih =>
    intro s h
    cases s with
    | nil => exact absurd h (by simp [leadsWith])
    | cons b bs =>
      simp only [leadsWith, Bool.and_eq_true, beq_iff_eq] at h
      obtain ⟨hab, hrest⟩ := h
      subst hab
      obtain ⟨r, hr⟩ := ih bs hrest
      exact ⟨r, by rw [hr]; rfl⟩

/-- A successful split decomposes the list around the separator. -/
lemma splitAtSub_decomp (sep : List Char) :
    ∀ (s pre post : List Char), splitAtSub sep s = some (pre, post) →
      s = pre ++ sep ++ post := by
  intro s
  induction s with
  | nil =>
    intro pre post h
    exact Option.noConfusion h
  | cons c rest ih =>
    intro pre post h
    by_cases hl : leadsWith sep (c :: rest) = true
    · simp only [splitAtSub, if_pos hl, Option.some.injEq, Prod.mk.injEq] at h
      obtain ⟨hpre, hpost⟩ := h
      obtain ⟨r, hr⟩ := exists_of_leadsWith sep (c :: rest) hl
      rw [← hpre, ← hpost, hr, List.nil_append, List.drop_left]
    · simp only [splitAtSub, if_neg hl] at h
      cases hsub : splitAtSub sep rest with
      | none => simp [hsub] at h
      | some p =>
        obtain ⟨pre2, post2⟩ := p
        simp only [hsub, Option.some.injEq, Prod.mk.injEq] at h
        obtain ⟨hpre, hpost⟩ := h
        rw [← hpre, ← hpost]
        have := ih pre2 post2 hsub
        rw [List.cons_append, List.cons_append, ← this]

/-- A decomposition around the separator makes the split succeed. -/
lemma splitAtSub_isSome_of_decomp (sep : List Char) (hsep : sep ≠ []) :
    ∀ (a b s : List Char), s = a ++ sep ++ b → (splitAtSub sep s).isSome = true := by
  intro a
  induction a with
  | nil =>
    intro b s hs
    subst hs
    cases hsep2 : sep with
    | nil => exact absurd hsep2 hsep
    | cons c cs =>
      subst hsep2
      simp only [List.nil_append, List.cons_append, splitAtSub]
      rw [if_pos (by simpa using leadsWith_append (c :: cs) b)]
      rfl
  | cons x xs ih =>
    intro b s hs
    subst hs
    have hxs : (splitAtSub sep (xs ++ (sep ++ b))).isSome = true := by
      rw [← List.append_assoc]
      exact ih b (xs ++ sep ++ b) rfl
    simp only [List.cons_append, List.append_assoc]
    by_cases hl : leadsWith sep (x :: (xs ++ (sep ++ b))) = true
    · simp only [splitAtSub]
      rw [if_pos hl]
      rfl
    · simp only [splitAtSub]
      rw [if_neg hl]
      cases hsub : splitAtSub sep (xs ++ (sep ++ b)) with
      | none =>
        rw [hsub] at hxs
        simp at hxs
      | some p =>
        obtain ⟨pre, post⟩ := p
        rfl

/-- The split finds the leftmost occurrence: its prefix is no longer than
the prefix of any decomposition. -/
lemma splitAtSub_min (sep : List Char) :
    ∀ (s pre post : List Char), splitAtSub sep s = some (pre, post) →
      ∀ a b, s = a ++ sep ++ b → pre.length ≤ a.length := by
  intro s
  induction s with
  | nil =>
    intro pre post h
    exact Option.noConfusion h
  | cons c rest ih =>
    intro pre post h a b hs
    by_cases hl : leadsWith sep (c :: rest) = true
    · simp only [splitAtSub, if_pos hl, Option.some.injEq, Prod.mk.injEq] at h
      rw [← h.1]
      simp
    · simp only [splitAtSub, if_neg hl] at h
      cases a with
      | nil =>
        exfalso
        have : leadsWith sep (c :: rest) = true := by
          rw [hs, List.nil_append]
          exact leadsWith_append sep b
        exact absurd this hl
      | cons a0 as =>
        rw [List.cons_append, List.cons_append] at hs
        injection hs with hc hrest
        cases hsub : splitAtSub sep rest with
        | none => simp [hsub] at h
        | some p =>
          obtain ⟨pre2, post2⟩ := p
          simp only [hsub, Option.some.injEq, Prod.mk.injEq] at h
          have hle := ih pre2 post2 hsub as b hrest
          rw [← h.1]
          simpa using hle

/-- The split at a minimal decomposition returns exactly that
decomposition. -/
lemma splitAtSub_eq_of_min (sep : List Char) (hsep : sep ≠ []) (pre post : List Char)
    (hmin : ∀ a b, pre ++ sep ++ post = a ++ sep ++ b → pre.length ≤ a.length) :
    splitAtSub sep (pre ++ sep ++ post) = some (pre, post) := by
  have hsome : (splitAtSub sep (pre ++ sep ++ post)).isSome = true :=
    splitAtSub_isSome_of_decomp sep hsep pre post (pre ++ sep ++ post) rfl
  cases hsub : splitAtSub sep (pre ++ sep ++ post) with
  | none =>
    rw [hsub] at hsome
    simp at hsome
  | some p =>
    obtain ⟨p2, q2⟩ := p
    have hdec := splitAtSub_decomp sep _ p2 q2 hsub
    have hle1 := splitAtSub_min sep _ p2 q2 hsub pre post rfl
    have hle2 := hmin p2 q2 hdec
    have hassoc : pre ++ (sep ++ post) = p2 ++ (sep ++ q2) := by
      rw [← List.append_assoc, ← List.append_assoc]
      exact hdec
    obtain ⟨hp, hq⟩ := List.append_inj hassoc (by omega)
    have hq2 := List.append_cancel_left hq
    rw [hp, hq2]

/-- A positive substring test yields a decomposition. -/
lemma containsSubP_of_containsSub (sep s : List Char) (h : containsSub sep s = true) :
    ContainsSubP sep s := by
  unfold containsSub at h
  cases hsub : splitAtSub sep s with
  | none => rw [hsub] at h; simp at h
  | some p => exact ⟨p.1, p.2, splitAtSub_decomp sep s p.1 p.2 (by rw [hsub])⟩

/-- Absence of any decomposition makes the substring test negative. -/
lemma containsSub_eq_false_of_not (sep s : List Char)
    (h : ¬ ContainsSubP sep s) : containsSub sep s = false := by
  cases hb : containsSub sep s with
  | false => rfl
  | true => exact absurd (containsSubP_of_containsSub sep s hb) h

/-- A negative substring test refutes every decomposition. -/
lemma not_containsSubP_of_false (sep s : List Char) (hsep : sep ≠ [])
    (h : containsSub sep s = false) : ¬ ContainsSubP sep s := by
  rintro ⟨a, b, hd⟩
  have := splitAtSub_isSome_of_decomp sep hsep a b s hd
  unfold containsSub at h
  rw [h] at this
  exact Bool.noConfusion this

/-- A decomposition at a character absent from the prefix is minimal. -/
lemma min_of_not_mem (ch : Char) :
    ∀ (pre : List Char), ch ∉ pre → ∀ (a post b : List Char),
      pre ++ ch :: post = a ++ ch :: b → pre.length ≤ a.length := by
  intro pre
  induction pre with
  | nil =>
    intro _ a post b _
    simp
  | cons p ps ih =>
    intro hmem a post b heq
    have hp : p ≠ ch := fun hc => hmem (by simp [hc])
    have hps : ch ∉ ps := fun hc => hmem (by simp [hc])
    cases a with
    | nil =>
      rw [List.nil_append, List.cons_append] at heq
      injection heq with h1 h2
      exact absurd h1 hp
    | cons a0 as =>
      rw [List.cons_append, List.cons_append] at heq
      injection heq with h1 h2
      simpa using ih hps as post b h2

/-- Claim C2 as amended: normalization keeps the trimmed part before the
first double-slash separator when one occurs; otherwise, when the name
holds a slash anywhere (spaces around it or not), it keeps the trimmed
part before the first slash; names with neither separator are unchanged;
the three concrete examples evaluate accordingly, with `Fire / Ice`
becoming `Fire`. -/
theorem c2_normalize_characterization :
    (∀ pre post : List Char,
      (∀ a b : List Char, pre ++ dslashChars ++ post = a ++ dslashChars ++ b →
        pre.length ≤ a.length) →
      normalize_card_name (pre ++ dslashChars ++ post) = strip pre) ∧
    (∀ pre post : List Char, ¬ ContainsSubP dslashChars (pre ++ '/' :: post) →
      '/' ∉ pre → normalize_card_name (pre ++ '/' :: post) = strip pre) ∧
    (∀ name : List Char, ¬ ContainsSubP dslashChars name → '/' ∉ name →
      normalize_card_name name = name) ∧
    normalize_card_name "Bala Ged Recovery // Bala Ged Sanctuary".data =
      "Bala Ged Recovery".data ∧
    normalize_card_name "Fire/Ice".data = "Fire".data ∧
    normalize_card_name "Fire / Ice".data = "Fire".data := by
  refine ⟨?_, ?_, ?_, by decide, by decide, by decide⟩
  · intro pre post hmin
    have hsplit := splitAtSub_eq_of_min dslashChars (by decide) pre post hmin
    unfold normalize_card_name
    rw [if_pos (by unfold containsSub; rw [hsplit]; rfl)]
    unfold beforeFirst
    rw [hsplit]
  · intro pre post hnd hslash
    have hcons : pre ++ '/' :: post = pre ++ ['/'] ++ post := by simp
    have hone : splitAtSub ['/'] (pre ++ '/' :: post) = some (pre, post) := by
      rw [hcons]
      apply splitAtSub_eq_of_min ['/'] (by decide) pre post
      intro a b hab
      rw [← hcons, show a ++ ['/'] ++ b = a ++ '/' :: b from by simp] at hab
      exact min_of_not_mem '/' pre hslash a post b hab
    have hd : containsSub dslashChars (pre ++ '/' :: post) = false :=
      containsSub_eq_false_of_not dslashChars _ hnd
    unfold normalize_card_name
    rw [if_neg (by simp [hd]), if_pos (by unfold containsSub; rw [hone]; rfl)]
    unfold beforeFirst
    rw [hone]
  · intro name hnd hslash
    have hd : containsSub dslashChars name = false :=
      containsSub_eq_false_of_not dslashChars _ hnd
    have hone : containsSub ['/'] name = false := by
      cases hb : containsSub ['/'] name with
      | false => rfl
      | true =>
        obtain ⟨a, b, hab⟩ := containsSubP_of_containsSub ['/'] name hb
        exact absurd (by rw [hab]; simp) hslash
    unfold normalize_card_name
    rw [if_neg (by simp [hd]), if_neg (by simp [hone])]

/-- Witness for C2: splitting `Fire / Ice` at its first slash gives
the trimmed prefix `Fire`. -/
theorem c2_normalize_characterization_witness :
    normalize_card_name ("Fire ".data ++ '/' :: " Ice".data) = strip "Fire ".data :=
  c2_normalize_characterization.2.1 "Fire ".data " Ice".data
    (not_containsSubP_of_false dslashChars _ (by decide) (by decide)) (by decide)

end CardDiff
